import Mathlib

/-!
Shallow embedding of the fd-transceiver subsystem of
github.com/edwarnicke/grpcfd as vendored in kubeslice/cmd-forwarder-kernel.

Go strings are modelled as `List Char`; file descriptors and channel
identities as `Nat`; syscall outcomes (descriptor duplication, message
write errors) as explicit oracle arguments; the side effects of the
wrapper (channel sends, channel closes, descriptor closes, socket writes)
as an explicit event trace.
-/

set_option linter.unusedVariables false

namespace GrpcFD

/-! ## Decimal codec

Models `fmt.Sprintf("%d", n)` (decimal rendering of an unsigned integer)
and `strconv.ParseUint(s, 10, 64)` from url.go. -/

/-- The decimal digit character for `d` (callers always pass `d < 10`;
larger values clamp to '9', matching no reachable case). -/
def digitChar (d : Nat) : Char :=
  match d with
  | 0 => '0' | 1 => '1' | 2 => '2' | 3 => '3' | 4 => '4'
  | 5 => '5' | 6 => '6' | 7 => '7' | 8 => '8' | _ => '9'

/-- Fuel-based decimal rendering; `natToDec` supplies enough fuel. -/
def natToDecAux : Nat → Nat → List Char
  | 0, _ => []
  | fuel + 1, n =>
    if n < 10 then [digitChar n]
    else natToDecAux fuel (n / 10) ++ [digitChar (n % 10)]

/-- Decimal rendering of `n`, as produced by Go's `%d` for uint64. -/
def natToDec (n : Nat) : List Char := natToDecAux (n + 1) n

def isDecDigit (c : Char) : Bool := 48 ≤ c.toNat && c.toNat ≤ 57

def digitVal (c : Char) : Nat := c.toNat - 48

/-- Accumulating decimal parse; `none` on the first non-digit character. -/
def parseDecCore : List Char → Nat → Option Nat
  | [], acc => some acc
  | c :: rest, acc =>
    if isDecDigit c then parseDecCore rest (acc * 10 + digitVal c) else none

/-- `strconv.ParseUint(s, 10, 64)`: rejects the empty string, any
non-digit character (in particular sign characters), and values that do
not fit in 64 bits. -/
def parseUint64 (cs : List Char) : Option Nat :=
  if cs = [] then none
  else
    match parseDecCore cs 0 with
    | some v => if v < 2 ^ 64 then some v else none
    | none => none

/-! ## URL model

Restricted model of `net/url` as used by url.go: a URL is
`(scheme, host, path)`; parsing splits the input at the first `"://"`
(inputs without one get an empty scheme, as Go gives non-absolute URLs);
rendering is Go's `URL.String()` restricted to these fields, including
the `/` it inserts between a nonempty host and a path that does not
start with `/`. -/

structure URLm where
  scheme : List Char
  host : List Char
  path : List Char
deriving DecidableEq, Repr

/-- Split at the first occurrence of `"://"`: `some (before, after)`,
or `none` when the separator does not occur. -/
def splitScheme : List Char → Option (List Char × List Char)
  | [] => none
  | c :: rest =>
    if c = ':' ∧ rest.take 2 = ['/', '/'] then some ([], rest.drop 2)
    else
      match splitScheme rest with
      | some (s, r) => some (c :: s, r)
      | none => none

/-- Split host (everything before the first `/`) from path (the rest,
slash included). -/
def splitHost : List Char → List Char × List Char
  | [] => ([], [])
  | c :: rest =>
    if c = '/' then ([], c :: rest)
    else (c :: (splitHost rest).1, (splitHost rest).2)

/-- Restricted `url.Parse`. -/
def parseURL (cs : List Char) : URLm :=
  match splitScheme cs with
  | some (sch, rest) =>
    let p := splitHost rest
    ⟨sch, p.1, p.2⟩
  | none => ⟨[], [], cs⟩

/-- `strings.TrimPrefix(path, "/")`: drop one leading slash if present. -/
def trimLeadSlash (cs : List Char) : List Char :=
  match cs with
  | [] => []
  | c :: rest => if c = '/' then rest else c :: rest

/-- `URLToDevIno` from url.go: scheme must be `inode`, host and
slash-trimmed path must parse as uint64. -/
def urlToDevIno (u : URLm) : Option (Nat × Nat) :=
  if u.scheme = "inode".data then
    match parseUint64 u.host, parseUint64 (trimLeadSlash u.path) with
    | some dev, some ino => some (dev, ino)
    | _, _ => none
  else none

/-- `URLStringToDevIno` from url.go. -/
def urlStringToDevIno (cs : List Char) : Option (Nat × Nat) :=
  urlToDevIno (parseURL cs)

/-- The URL built by `FDToURL` for a descriptor whose stat yields
`(dev, ino)`: scheme `inode`, decimal host and path, no leading slash. -/
def devInoURL (dev ino : Nat) : URLm :=
  ⟨"inode".data, natToDec dev, natToDec ino⟩

/-- Go's `URL.String()` restricted to scheme/host/path. -/
def urlmString (u : URLm) : List Char :=
  u.scheme ++ (':' :: '/' :: '/' :: u.host) ++
    (if u.path ≠ [] ∧ u.path.head? ≠ some '/' ∧ u.host ≠ [] then '/' :: u.path
     else u.path)

/-! ## Connection wrapper state (connwrap_linux.go)

`connWrap` holds a queue of duplicated descriptors awaiting transmission
(`sendFDs`) with their result channels (`errChs`), a map from identity to
the cached received descriptor (`recvedFDs`), and a map from identity to
the channels of registered waiters (`recvFDChans`).  Maps are modelled as
association lists; channels are named by `Nat` identifiers and their
visible behaviour (value sent, channel closed) is recorded in an event
trace, as are descriptor closes and socket writes. -/

/-- `inodeKey`: the (device, inode) identity of a filesystem object. -/
structure InodeKey where
  dev : Nat
  ino : Nat
deriving DecidableEq, Repr

/-- Errors that can be delivered on a result channel. -/
inductive Err where
  /-- "unable to send fd %d because connection closed" from `close`. -/
  | connClosed (fd : Nat)
  /-- duplication (`fcntl F_DUPFD`) failed, from `SendFD`. -/
  | dupFailed
  /-- an error produced by the underlying connection (oracle-supplied). -/
  | sys (code : Nat)
deriving DecidableEq, Repr

/-- Observable side effects of the wrapper. -/
inductive FDEvent where
  /-- `syscall.Close(fd)`. -/
  | closeFD (fd : Nat)
  /-- `ch <- err`. -/
  | chanSendErr (ch : Nat) (e : Err)
  /-- `fdCh <- fd`. -/
  | chanSendFD (ch : Nat) (fd : Nat)
  /-- `close(ch)`. -/
  | chanClose (ch : Nat)
  /-- `WriteMsgUnix([]byte{payload}, rights(fd), nil)`: one ancillary
  message carrying exactly one payload byte and one descriptor. -/
  | writeMsg (payload : Nat) (fd : Nat)
  /-- `Conn.Write(bs)`: the normal write of the remaining bytes. -/
  | writeBytes (bs : List Nat)
deriving DecidableEq, Repr

/-- Mutable state of a `connWrap`. -/
structure ConnState where
  sendFDs : List Nat
  errChs : List Nat
  recvedFDs : List (InodeKey × Nat)
  recvFDChans : List (InodeKey × List Nat)
deriving DecidableEq, Repr

/-- Association-list lookup (Go map read). -/
def lookupKey (k : InodeKey) : List (InodeKey × α) → Option α
  | [] => none
  | (k2, v) :: rest => if k2 = k then some v else lookupKey k rest

/-- Association-list erase (Go map `delete`). -/
def eraseKey (k : InodeKey) : List (InodeKey × α) → List (InodeKey × α)
  | [] => []
  | (k2, v) :: rest =>
    if k2 = k then eraseKey k rest else (k2, v) :: eraseKey k rest

/-- `w.recvFDChans[key] = append(w.recvFDChans[key], fdCh)`. -/
def appendWaiter (k : InodeKey) (ch : Nat) :
    List (InodeKey × List Nat) → List (InodeKey × List Nat)
  | [] => [(k, [ch])]
  | (k2, chs) :: rest =>
    if k2 = k then (k2, chs ++ [ch]) :: rest
    else (k2, chs) :: appendWaiter k ch rest

/-- `maxFDCount` from connwrap_linux.go. -/
def maxFDCount : Nat := 64

/-! ### Event-trace extractors -/

/-- The `(channel, error)` pairs delivered, in order. -/
def errDeliveries (evs : List FDEvent) : List (Nat × Err) :=
  evs.filterMap fun e =>
    match e with
    | FDEvent.chanSendErr ch er => some (ch, er)
    | _ => none

/-- The `(channel, fd)` pairs delivered, in order. -/
def fdDeliveries (evs : List FDEvent) : List (Nat × Nat) :=
  evs.filterMap fun e =>
    match e with
    | FDEvent.chanSendFD ch fd => some (ch, fd)
    | _ => none

/-- The channels closed, in order. -/
def closedChans (evs : List FDEvent) : List Nat :=
  evs.filterMap fun e =>
    match e with
    | FDEvent.chanClose ch => some ch
    | _ => none

/-- The descriptors passed to `syscall.Close`, in order. -/
def closedFDs (evs : List FDEvent) : List Nat :=
  evs.filterMap fun e =>
    match e with
    | FDEvent.closeFD fd => some fd
    | _ => none

/-- The `(payload byte, fd)` pairs of ancillary messages, in order. -/
def sentMsgs (evs : List FDEvent) : List (Nat × Nat) :=
  evs.filterMap fun e =>
    match e with
    | FDEvent.writeMsg p fd => some (p, fd)
    | _ => none

/-- Did some event deliver a descriptor on channel `ch`? -/
def deliveredTo (evs : List FDEvent) (ch : Nat) : Bool :=
  evs.any fun e =>
    match e with
    | FDEvent.chanSendFD c _ => c = ch
    | _ => false

/-! ### Operations -/

/-- `connWrap.close`: close every cached descriptor and clear the cache,
close every waiter channel and clear the registry (receive executor),
then deliver a connection-closed error on each queued send's channel,
close it, and close the queued duplicate (send executor). -/
def closeConn (s : ConnState) : ConnState × List FDEvent :=
  (⟨[], [], [], []⟩,
   (s.recvedFDs.map fun p => FDEvent.closeFD p.2) ++
     (s.recvFDChans.flatMap fun p => p.2.map FDEvent.chanClose) ++
     ((s.sendFDs.zip s.errChs).flatMap fun p =>
       [FDEvent.chanSendErr p.2 (Err.connClosed p.1), FDEvent.chanClose p.2,
        FDEvent.closeFD p.1]))

/-- The drain loop of `connWrap.Write`: for the `i`-th drained entry
`(fd, ch)` it reads `b[i]` (Go's panicking index: `none` models the
out-of-range panic), sends one ancillary message with that byte and the
descriptor, delivers the message error (oracle `msgErr i`) on `ch` if
any, closes `ch`, and closes the wrapper's duplicate. -/
def drainEntries (b : List Nat) (msgErr : Nat → Option Err) :
    List (Nat × Nat) → Nat → Option (List FDEvent)
  | [], _ => some []
  | (fd, ch) :: rest, i =>
    match b[i]? with
    | none => none
    | some byte =>
      match drainEntries b msgErr rest (i + 1) with
      | none => none
      | some evs =>
        some (FDEvent.writeMsg byte fd ::
          ((match msgErr i with
            | some e => [FDEvent.chanSendErr ch e]
            | none => []) ++
           (FDEvent.chanClose ch :: FDEvent.closeFD fd :: evs)))

/-- Number of entries drained by one `Write`: `min(len(sendFDs), 64)`. -/
def writeLimit (s : ConnState) : Nat := min s.sendFDs.length maxFDCount

/-- `connWrap.Write b`: drain up to 64 queued entries from the front of
the queue, then write the remaining bytes normally.  `msgErr` is the
per-message `WriteMsgUnix` error oracle, `finalErr` the error oracle of
the final `Conn.Write` (which reports `nFail` bytes on failure; on
success a `net.Conn` write reports the full remainder).  Returns the new
state, the event trace, the reported byte count, and the returned error;
`none` models the index-out-of-range panic when the buffer is shorter
than the number of drained entries. -/
def connWrite (s : ConnState) (b : List Nat) (msgErr : Nat → Option Err)
    (finalErr : Option Err) (nFail : Nat) :
    Option (ConnState × List FDEvent × Nat × Option Err) :=
  match drainEntries b msgErr
      ((s.sendFDs.take (writeLimit s)).zip (s.errChs.take (writeLimit s))) 0 with
  | none => none
  | some evs =>
    match finalErr with
    | none =>
      some ({ s with sendFDs := s.sendFDs.drop (writeLimit s), errChs := s.errChs.drop (writeLimit s) },
        evs ++ [FDEvent.writeBytes (b.drop (writeLimit s))],
        (b.drop (writeLimit s)).length + writeLimit s, none)
    | some e =>
      some ({ s with sendFDs := s.sendFDs.drop (writeLimit s), errChs := s.errChs.drop (writeLimit s) },
        evs ++ [FDEvent.writeBytes (b.drop (writeLimit s))], nFail, some e)

/-- `connWrap.SendFD`: the caller's descriptor is duplicated
synchronously before anything is enqueued; `dup` is the outcome of that
`fcntl F_DUPFD` (`some fd2` = the wrapper-owned duplicate).  On failure
the error is delivered on the fresh channel immediately and the channel
closed, with no entry enqueued; on success the duplicate and the channel
are appended to the queue.  Returns (state, events, channel). -/
def sendFD (s : ConnState) (newCh : Nat) (dup : Option Nat) :
    ConnState × List FDEvent × Nat :=
  match dup with
  | none => (s, [FDEvent.chanSendErr newCh Err.dupFailed, FDEvent.chanClose newCh], newCh)
  | some fd2 =>
    ({ s with sendFDs := s.sendFDs ++ [fd2], errChs := s.errChs ++ [newCh] },
     [], newCh)

/-- `connWrap.RecvFD dev ino`: on a cache hit, duplicate the cached
descriptor (`dup` is the `F_DUPFD` outcome) and deliver the duplicate on
the fresh channel, then close it (on duplication failure the channel is
just closed); the cache entry is never removed here.  On a miss,
register the channel as a waiter.  Returns (state, events, channel). -/
def recvFD (s : ConnState) (dev ino : Nat) (newCh : Nat) (dup : Option Nat) :
    ConnState × List FDEvent × Nat :=
  match lookupKey ⟨dev, ino⟩ s.recvedFDs with
  | some _ =>
    match dup with
    | some fd2 => (s, [FDEvent.chanSendFD newCh fd2, FDEvent.chanClose newCh], newCh)
    | none => (s, [FDEvent.chanClose newCh], newCh)
  | none =>
    ({ s with recvFDChans := appendWaiter ⟨dev, ino⟩ newCh s.recvFDChans },
     [], newCh)

/-- `connWrap.RecvFDByURL`: decode the locator first; on decode failure
return the error synchronously — the state is returned unchanged and no
channel is created (`none` in the second component). -/
def recvFDByURL (s : ConnState) (urlStr : List Char) (newCh : Nat)
    (dup : Option Nat) : ConnState × Option (List FDEvent × Nat) :=
  match urlStringToDevIno urlStr with
  | none => (s, none)
  | some (dev, ino) =>
    let r := recvFD s dev ino newCh dup
    (r.1, some (r.2.1, r.2.2))

/-- Resolution of the registered waiters for a newly cached descriptor
(`connWrap.Read`): each waiter gets its own `F_DUPFD` duplicate of the
cached descriptor (`dup j` is the outcome of the `j`-th duplication);
on success the duplicate is sent and the channel closed, on failure the
channel is closed without a value and the loop continues. -/
def resolveWaiters (dup : Nat → Option Nat) : List Nat → Nat → List FDEvent
  | [], _ => []
  | ch :: rest, j =>
    (match dup j with
     | some fd2 => [FDEvent.chanSendFD ch fd2, FDEvent.chanClose ch]
     | none => [FDEvent.chanClose ch]) ++ resolveWaiters dup rest (j + 1)

/-- Handling of one descriptor `fd` with stat identity `key` arriving in
ancillary data during `connWrap.Read`: if the identity is already
cached, close the newly received raw descriptor and change nothing;
otherwise cache it, resolve every registered waiter for that identity by
duplication, and delete the identity's waiter list. -/
def handleArrival (s : ConnState) (key : InodeKey) (fd : Nat)
    (dup : Nat → Option Nat) : ConnState × List FDEvent :=
  match lookupKey key s.recvedFDs with
  | some _ => (s, [FDEvent.closeFD fd])
  | none =>
    ({ s with recvedFDs := s.recvedFDs ++ [(key, fd)],
              recvFDChans := eraseKey key s.recvFDChans },
     resolveWaiters dup ((lookupKey key s.recvFDChans).getD []) 0)

/-- Keys of an association list are pairwise distinct (Go map model). -/
def keysNodup (m : List (InodeKey × α)) : Prop := (m.map Prod.fst).Nodup

/-- Indexed view of a list, indices starting at `j`. -/
def withIdx : Nat → List α → List (Nat × α)
  | _, [] => []
  | j, a :: as => (j, a) :: withIdx (j + 1) as

/-! ## Per-call credential adapter (per_rpc_transport_credentials.go)

Transceiver capabilities are named by `Nat`.  A deferred operation
records the operation's arguments together with the caller-visible
output channel it was created with; a replay event `(t, op)` stands for
re-invoking `op` against capability `t` with the relay goroutine feeding
`op`'s original output channel. -/

inductive DeferredOp where
  | sendFDOp (fd : Nat) (outCh : Nat)
  | sendFileOp (file : Nat) (outCh : Nat)
  | recvFDOp (dev ino : Nat) (outCh : Nat)
deriving DecidableEq, Repr

/-- The caller-visible channel a deferred operation resolves into. -/
def DeferredOp.outChan : DeferredOp → Nat
  | DeferredOp.sendFDOp _ ch => ch
  | DeferredOp.sendFileOp _ ch => ch
  | DeferredOp.recvFDOp _ _ ch => ch

/-- State of `wrapPerRPCCredentials`. -/
structure PerRPCState where
  transceiver : Option Nat
  transceiverFuncs : List DeferredOp
deriving DecidableEq, Repr

/-- `GetRequestMetadata`'s executor task: if a transceiver is already
resolved, do nothing; otherwise, if `ctxT` (the capability discoverable
from the call context) is present, store it, replay every deferred
operation against it in submission order, and clear the list. -/
def getRequestMetadata (s : PerRPCState) (ctxT : Option Nat) :
    PerRPCState × List (Nat × DeferredOp) :=
  match s.transceiver with
  | some _ => (s, [])
  | none =>
    match ctxT with
    | some t => (⟨some t, []⟩, s.transceiverFuncs.map fun f => (t, f))
    | none => (s, [])

/-- `wrapPerRPCCredentials.SendFD`: make the output channel first; if
resolved, invoke immediately (relaying into it), else defer the closure.
Returns (state, replays, the caller-visible channel). -/
def perRPCSendFD (s : PerRPCState) (fd : Nat) (newCh : Nat) :
    PerRPCState × List (Nat × DeferredOp) × Nat :=
  match s.transceiver with
  | some t => (s, [(t, DeferredOp.sendFDOp fd newCh)], newCh)
  | none =>
    ({ s with transceiverFuncs := s.transceiverFuncs ++ [DeferredOp.sendFDOp fd newCh] },
     [], newCh)

/-! ## Lemmas: decimal codec -/

theorem digitVal_digitChar {d : Nat} (h : d < 10) : digitVal (digitChar d) = d := by
  interval_cases d <;> decide

theorem isDecDigit_digitChar {d : Nat} (h : d < 10) :
    isDecDigit (digitChar d) = true := by
  interval_cases d <;> decide

theorem isDecDigit_ne_colon {c : Char} (h : isDecDigit c = true) : c ≠ ':' := by
  intro hc
  rw [hc] at h
  exact absurd h (by decide)

theorem isDecDigit_ne_slash {c : Char} (h : isDecDigit c = true) : c ≠ '/' := by
  intro hc
  rw [hc] at h
  exact absurd h (by decide)

theorem natToDecAux_small {fuel n : Nat} (h : n < 10) :
    natToDecAux (fuel + 1) n = [digitChar n] := by
  simp [natToDecAux, h]

theorem natToDecAux_large {fuel n : Nat} (h : ¬ n < 10) :
    natToDecAux (fuel + 1) n = natToDecAux fuel (n / 10) ++ [digitChar (n % 10)] := by
  simp [natToDecAux, h]

theorem parseDecCore_single_digit {d acc : Nat} (h : d < 10) :
    parseDecCore [digitChar d] acc = some (acc * 10 + d) := by
  simp [parseDecCore, isDecDigit_digitChar h, digitVal_digitChar h]

theorem parseDecCore_append (xs ys : List Char) (acc : Nat) :
    parseDecCore (xs ++ ys) acc =
      match parseDecCore xs acc with
      | some a => parseDecCore ys a
      | none => none := by
  induction xs generalizing acc with
  | nil => simp [parseDecCore]
  | cons c rest ih =>
    simp only [List.cons_append, parseDecCore]
    by_cases h : isDecDigit c = true
    · simp only [h, if_true]
      exact ih (acc * 10 + digitVal c)
    · simp [h]

theorem parse_natToDecAux :
    ∀ fuel n : Nat, n ≤ fuel → ∀ acc : Nat,
      parseDecCore (natToDecAux (fuel + 1) n) acc =
        some (acc * 10 ^ (natToDecAux (fuel + 1) n).length + n) := by
  intro fuel
  induction fuel with
  | zero =>
    intro n hn acc
    interval_cases n
    rw [natToDecAux_small (by omega), parseDecCore_single_digit (by omega)]
    simp
  | succ fuel ih =>
    intro n hn acc
    by_cases h : n < 10
    · rw [natToDecAux_small h, parseDecCore_single_digit h]
      simp
    · rw [natToDecAux_large h, parseDecCore_append,
        ih (n / 10) (by omega) acc]
      simp only []
      rw [parseDecCore_single_digit (by omega)]
      rw [List.length_append, List.length_singleton, pow_succ, ← mul_assoc]
      congr 1
      generalize acc * 10 ^ (natToDecAux (fuel + 1) (n / 10)).length = B
      omega

theorem parse_natToDec (n : Nat) : parseDecCore (natToDec n) 0 = some n := by
  have := parse_natToDecAux n n le_rfl 0
  rw [natToDec, this]
  simp

theorem natToDec_ne_nil (n : Nat) : natToDec n ≠ [] := by
  rw [natToDec]
  by_cases h : n < 10
  · rw [natToDecAux_small h]; simp
  · rw [natToDecAux_large h]; simp

theorem parseUint64_natToDec {n : Nat} (h : n < 2 ^ 64) :
    parseUint64 (natToDec n) = some n := by
  rw [parseUint64, if_neg (natToDec_ne_nil n), parse_natToDec]
  exact if_pos h

theorem mem_natToDecAux_isDigit :
    ∀ fuel n : Nat, n ≤ fuel → ∀ c ∈ natToDecAux (fuel + 1) n, isDecDigit c = true := by
  intro fuel
  induction fuel with
  | zero =>
    intro n hn c hc
    interval_cases n
    rw [natToDecAux_small (by omega)] at hc
    simp at hc
    rw [hc]
    exact isDecDigit_digitChar (by omega)
  | succ fuel ih =>
    intro n hn c hc
    by_cases h : n < 10
    · rw [natToDecAux_small h] at hc
      simp at hc
      rw [hc]
      exact isDecDigit_digitChar h
    · rw [natToDecAux_large h] at hc
      rcases List.mem_append.mp hc with h1 | h2
      · exact ih (n / 10) (by omega) c h1
      · simp at h2
        rw [h2]
        exact isDecDigit_digitChar (by omega)

theorem mem_natToDec_isDigit (n : Nat) : ∀ c ∈ natToDec n, isDecDigit c = true :=
  mem_natToDecAux_isDigit n n le_rfl

/-! ## Lemmas: URL model -/

theorem splitScheme_cons_ne {c : Char} (h : c ≠ ':') (cs : List Char) :
    splitScheme (c :: cs) =
      match splitScheme cs with
      | some (s, r) => some (c :: s, r)
      | none => none := by
  rw [splitScheme, if_neg (fun hand => h hand.1)]

theorem splitScheme_sep (cs : List Char) :
    splitScheme (':' :: '/' :: '/' :: cs) = some ([], cs) := by
  rw [splitScheme, if_pos ⟨rfl, by simp⟩]
  simp

theorem splitScheme_inode (rest : List Char) :
    splitScheme ('i' :: 'n' :: 'o' :: 'd' :: 'e' :: ':' :: '/' :: '/' :: rest) =
      some (['i', 'n', 'o', 'd', 'e'], rest) := by
  rw [splitScheme_cons_ne (by decide), splitScheme_cons_ne (by decide),
    splitScheme_cons_ne (by decide), splitScheme_cons_ne (by decide),
    splitScheme_cons_ne (by decide), splitScheme_sep]

theorem splitHost_append_digits (D : List Char) (hD : ∀ c ∈ D, isDecDigit c = true)
    (rest : List Char) : splitHost (D ++ '/' :: rest) = (D, '/' :: rest) := by
  induction D with
  | nil => simp [splitHost]
  | cons c cs ih =>
    have hc : c ≠ '/' := isDecDigit_ne_slash (hD c (by simp))
    have hcs := ih fun x hx => hD x (by simp [hx])
    simp only [List.cons_append, splitHost, if_neg hc, List.append_eq, hcs]

theorem trimLeadSlash_cons (cs : List Char) : trimLeadSlash ('/' :: cs) = cs := by
  simp [trimLeadSlash]

theorem parseURL_eq {cs sch rest : List Char}
    (h : splitScheme cs = some (sch, rest)) :
    parseURL cs = ⟨sch, (splitHost rest).1, (splitHost rest).2⟩ := by
  rw [parseURL, h]

theorem urlToDevIno_mk (sch hst p : List Char) :
    urlToDevIno ⟨sch, hst, p⟩ =
      if sch = "inode".data then
        match parseUint64 hst, parseUint64 (trimLeadSlash p) with
        | some dev, some ino => some (dev, ino)
        | _, _ => none
      else none := rfl

theorem urlmString_mk (sch hst p : List Char) :
    urlmString ⟨sch, hst, p⟩ =
      sch ++ (':' :: '/' :: '/' :: hst) ++
        (if p ≠ [] ∧ p.head? ≠ some '/' ∧ hst ≠ [] then '/' :: p else p) := rfl

/-- Claim C6: for every identity `(dev, ino)` of unsigned 64-bit integers,
encoding produces the locator `inode://{dev}/{ino}` with decimal fields,
and decoding that locator yields the identity back. -/
theorem c6_locator_roundtrip (dev ino : Nat) (hdev : dev < 2 ^ 64)
    (hino : ino < 2 ^ 64) :
    urlmString (devInoURL dev ino) =
      "inode://".data ++ natToDec dev ++ '/' :: natToDec ino ∧
    urlStringToDevIno (urlmString (devInoURL dev ino)) = some (dev, ino) := by
  have hstr : urlmString (devInoURL dev ino) =
      "inode://".data ++ natToDec dev ++ '/' :: natToDec ino := by
    have hcond : natToDec ino ≠ [] ∧ (natToDec ino).head? ≠ some '/' ∧
        natToDec dev ≠ [] := by
      refine ⟨natToDec_ne_nil ino, ?_, natToDec_ne_nil dev⟩
      cases hI : natToDec ino with
      | nil => exact absurd hI (natToDec_ne_nil ino)
      | cons c cs =>
        have hdig : isDecDigit c = true := mem_natToDec_isDigit ino c (by rw [hI]; simp)
        simp only [List.head?]
        intro hEq
        exact isDecDigit_ne_slash hdig (by injection hEq)
    rw [devInoURL, urlmString_mk, if_pos hcond, List.append_assoc]
    rfl
  refine ⟨hstr, ?_⟩
  rw [hstr]
  have hsplit : splitScheme ("inode://".data ++ natToDec dev ++ '/' :: natToDec ino) =
      some (['i', 'n', 'o', 'd', 'e'], natToDec dev ++ '/' :: natToDec ino) :=
    splitScheme_inode (natToDec dev ++ '/' :: natToDec ino)
  rw [urlStringToDevIno, parseURL_eq hsplit,
    splitHost_append_digits (natToDec dev) (mem_natToDec_isDigit dev)]
  rw [urlToDevIno_mk, if_pos rfl, trimLeadSlash_cons, parseUint64_natToDec hdev,
    parseUint64_natToDec hino]

/-- Witness for C6 at the concrete identity `(18, 37)`. -/
theorem c6_witness :
    urlmString (devInoURL 18 37) =
      "inode://".data ++ natToDec 18 ++ '/' :: natToDec 37 ∧
    urlStringToDevIno (urlmString (devInoURL 18 37)) = some (18, 37) :=
  c6_locator_roundtrip 18 37 (by norm_num) (by norm_num)

/-- Claim C7: a locator whose scheme is not `inode`, or whose device or
inode field is not a nonempty decimal numeral fitting in 64 bits, fails
to decode; `RecvFDByURL` on such a locator fails synchronously,
returning the error with the connection state unchanged and no channel
created. -/
theorem c7_malformed_locator_fails :
    (∀ cs : List Char, (parseURL cs).scheme ≠ "inode".data →
      urlStringToDevIno cs = none) ∧
    (∀ cs : List Char, parseUint64 (parseURL cs).host = none →
      urlStringToDevIno cs = none) ∧
    (∀ cs : List Char, parseUint64 (trimLeadSlash (parseURL cs).path) = none →
      urlStringToDevIno cs = none) ∧
    (∀ (ds : List Char) (v : Nat), parseDecCore ds 0 = some v → 2 ^ 64 ≤ v →
      parseUint64 ds = none) ∧
    urlStringToDevIno "not-a-scheme://x/y".data = none ∧
    (∀ (s : ConnState) (cs : List Char) (ch : Nat) (dup : Option Nat),
      urlStringToDevIno cs = none → recvFDByURL s cs ch dup = (s, none)) := by
  refine ⟨?_, ?_, ?_, ?_, by decide, ?_⟩
  · intro cs h
    rw [urlStringToDevIno, urlToDevIno, if_neg h]
  · intro cs h
    rw [urlStringToDevIno, urlToDevIno]
    split
    · rw [h]
    · rfl
  · intro cs h
    rw [urlStringToDevIno, urlToDevIno]
    split
    · rw [h]
      cases parseUint64 (parseURL cs).host <;> rfl
    · rfl
  · intro ds v hparse hbig
    rw [parseUint64]
    split
    · rfl
    · rw [hparse]
      show (if v < 2 ^ 64 then some v else none) = none
      rw [if_neg (by omega)]
  · intro s cs ch dup h
    rw [recvFDByURL, h]

/-- Witness for C7 at concrete malformed locators. -/
theorem c7_witness :
    urlStringToDevIno "ftp://1/2".data = none ∧
    urlStringToDevIno "inode://x/2".data = none ∧
    urlStringToDevIno "inode://1/x".data = none ∧
    parseUint64 "18446744073709551616".data = none ∧
    recvFDByURL ⟨[], [], [], []⟩ "not-a-scheme://x/y".data 9 none =
      (⟨[], [], [], []⟩, none) :=
  ⟨c7_malformed_locator_fails.1 _ (by decide),
   c7_malformed_locator_fails.2.1 _ (by decide),
   c7_malformed_locator_fails.2.2.1 _ (by decide),
   c7_malformed_locator_fails.2.2.2.1 _ 18446744073709551616 (by decide) (by norm_num),
   c7_malformed_locator_fails.2.2.2.2.2 _ _ 9 none (by decide)⟩

/-! ## Lemmas: event-trace extractors -/

theorem errDeliveries_nil : errDeliveries [] = [] := rfl

theorem fdDeliveries_nil : fdDeliveries [] = [] := rfl

theorem closedChans_nil : closedChans [] = [] := rfl

theorem closedFDs_nil : closedFDs [] = [] := rfl

theorem sentMsgs_nil : sentMsgs [] = [] := rfl

theorem errDeliveries_cons (e : FDEvent) (evs : List FDEvent) :
    errDeliveries (e :: evs) =
      (match e with
       | FDEvent.chanSendErr ch er => [(ch, er)]
       | _ => []) ++ errDeliveries evs := by
  cases e <;> rfl

theorem fdDeliveries_cons (e : FDEvent) (evs : List FDEvent) :
    fdDeliveries (e :: evs) =
      (match e with
       | FDEvent.chanSendFD ch fd => [(ch, fd)]
       | _ => []) ++ fdDeliveries evs := by
  cases e <;> rfl

theorem closedChans_cons (e : FDEvent) (evs : List FDEvent) :
    closedChans (e :: evs) =
      (match e with
       | FDEvent.chanClose ch => [ch]
       | _ => []) ++ closedChans evs := by
  cases e <;> rfl

theorem closedFDs_cons (e : FDEvent) (evs : List FDEvent) :
    closedFDs (e :: evs) =
      (match e with
       | FDEvent.closeFD fd => [fd]
       | _ => []) ++ closedFDs evs := by
  cases e <;> rfl

theorem sentMsgs_cons (e : FDEvent) (evs : List FDEvent) :
    sentMsgs (e :: evs) =
      (match e with
       | FDEvent.writeMsg p fd => [(p, fd)]
       | _ => []) ++ sentMsgs evs := by
  cases e <;> rfl

theorem errDeliveries_append (a b : List FDEvent) :
    errDeliveries (a ++ b) = errDeliveries a ++ errDeliveries b := by
  simp [errDeliveries]

theorem fdDeliveries_append (a b : List FDEvent) :
    fdDeliveries (a ++ b) = fdDeliveries a ++ fdDeliveries b := by
  simp [fdDeliveries]

theorem closedChans_append (a b : List FDEvent) :
    closedChans (a ++ b) = closedChans a ++ closedChans b := by
  simp [closedChans]

theorem closedFDs_append (a b : List FDEvent) :
    closedFDs (a ++ b) = closedFDs a ++ closedFDs b := by
  simp [closedFDs]

theorem sentMsgs_append (a b : List FDEvent) :
    sentMsgs (a ++ b) = sentMsgs a ++ sentMsgs b := by
  simp [sentMsgs]

/-! ## Lemmas: close (claim C3) -/

/-- The send-queue part of the close trace, per extractor. -/
theorem close_sendPart (l : List (Nat × Nat)) :
    errDeliveries (l.flatMap fun p =>
        [FDEvent.chanSendErr p.2 (Err.connClosed p.1), FDEvent.chanClose p.2,
         FDEvent.closeFD p.1]) = (l.map fun p => (p.2, Err.connClosed p.1)) ∧
    closedChans (l.flatMap fun p =>
        [FDEvent.chanSendErr p.2 (Err.connClosed p.1), FDEvent.chanClose p.2,
         FDEvent.closeFD p.1]) = l.map Prod.snd ∧
    closedFDs (l.flatMap fun p =>
        [FDEvent.chanSendErr p.2 (Err.connClosed p.1), FDEvent.chanClose p.2,
         FDEvent.closeFD p.1]) = l.map Prod.fst ∧
    fdDeliveries (l.flatMap fun p =>
        [FDEvent.chanSendErr p.2 (Err.connClosed p.1), FDEvent.chanClose p.2,
         FDEvent.closeFD p.1]) = [] := by
  induction l with
  | nil => exact ⟨rfl, rfl, rfl, rfl⟩
  | cons a as ih =>
    refine ⟨?_, ?_, ?_, ?_⟩ <;>
      simp [List.flatMap_cons, errDeliveries_append, closedChans_append,
        closedFDs_append, fdDeliveries_append, errDeliveries_cons,
        fdDeliveries_cons, closedChans_cons, closedFDs_cons, ih.1, ih.2.1,
        ih.2.2.1, ih.2.2.2, errDeliveries_nil, fdDeliveries_nil,
        closedChans_nil, closedFDs_nil]

/-- The waiter part of the close trace, per extractor. -/
theorem close_waiterPart (l : List (InodeKey × List Nat)) :
    errDeliveries (l.flatMap fun p => p.2.map FDEvent.chanClose) = [] ∧
    closedChans (l.flatMap fun p => p.2.map FDEvent.chanClose) =
      (l.flatMap fun p => p.2) ∧
    closedFDs (l.flatMap fun p => p.2.map FDEvent.chanClose) = [] ∧
    fdDeliveries (l.flatMap fun p => p.2.map FDEvent.chanClose) = [] := by
  have hchs : ∀ chs : List Nat,
      errDeliveries (chs.map FDEvent.chanClose) = [] ∧
      closedChans (chs.map FDEvent.chanClose) = chs ∧
      closedFDs (chs.map FDEvent.chanClose) = [] ∧
      fdDeliveries (chs.map FDEvent.chanClose) = [] := by
    intro chs
    induction chs with
    | nil => exact ⟨rfl, rfl, rfl, rfl⟩
    | cons c cs ih =>
      refine ⟨?_, ?_, ?_, ?_⟩ <;>
        simp [errDeliveries_cons, closedChans_cons, closedFDs_cons,
          fdDeliveries_cons, ih.1, ih.2.1, ih.2.2.1, ih.2.2.2,
          errDeliveries_nil, fdDeliveries_nil, closedChans_nil, closedFDs_nil]
  induction l with
  | nil => exact ⟨rfl, rfl, rfl, rfl⟩
  | cons a as ih =>
    refine ⟨?_, ?_, ?_, ?_⟩ <;>
      simp [List.flatMap_cons, errDeliveries_append, closedChans_append,
        closedFDs_append, fdDeliveries_append, (hchs a.2).1, (hchs a.2).2.1,
        (hchs a.2).2.2.1, (hchs a.2).2.2.2, ih.1, ih.2.1, ih.2.2.1, ih.2.2.2]

/-- The cached-descriptor part of the close trace, per extractor. -/
theorem close_cachePart (l : List (InodeKey × Nat)) :
    errDeliveries (l.map fun p => FDEvent.closeFD p.2) = [] ∧
    closedChans (l.map fun p => FDEvent.closeFD p.2) = [] ∧
    closedFDs (l.map fun p => FDEvent.closeFD p.2) = (l.map fun p => p.2) ∧
    fdDeliveries (l.map fun p => FDEvent.closeFD p.2) = [] := by
  induction l with
  | nil => exact ⟨rfl, rfl, rfl, rfl⟩
  | cons a as ih =>
    refine ⟨?_, ?_, ?_, ?_⟩ <;>
      simp [errDeliveries_cons, closedChans_cons, closedFDs_cons,
        fdDeliveries_cons, ih.1, ih.2.1, ih.2.2.1, ih.2.2.2,
        errDeliveries_nil, fdDeliveries_nil, closedChans_nil, closedFDs_nil]

theorem zip_map_connClosed (l1 l2 : List Nat) (h : l1.length = l2.length) :
    (l1.zip l2).map (fun p => (p.2, Err.connClosed p.1)) =
      l2.zip (l1.map Err.connClosed) := by
  induction l1 generalizing l2 with
  | nil => cases l2 <;> simp
  | cons a as ih =>
    cases l2 with
    | nil => simp at h
    | cons b bs =>
      simp only [List.zip_cons_cons, List.map_cons]
      rw [ih bs (by simpa using h)]

/-- Claim C3: closing a connection with `N` queued-but-untransmitted
sends delivers exactly one connection-closed error on each of the `N`
result channels (paired in order) and closes each of them, closes every
queued duplicate and every cached descriptor, closes every outstanding
waiter channel, delivers no descriptor, empties the wrapper state, and a
second close changes no state and delivers nothing. -/
theorem c3_close_fails_pending (s : ConnState)
    (hlen : s.errChs.length = s.sendFDs.length) :
    errDeliveries (closeConn s).2 = s.errChs.zip (s.sendFDs.map Err.connClosed) ∧
    (errDeliveries (closeConn s).2).length = s.sendFDs.length ∧
    closedChans (closeConn s).2 =
      (s.recvFDChans.flatMap fun p => p.2) ++ s.errChs ∧
    closedFDs (closeConn s).2 = (s.recvedFDs.map fun p => p.2) ++ s.sendFDs ∧
    fdDeliveries (closeConn s).2 = [] ∧
    (closeConn s).1 = ⟨[], [], [], []⟩ ∧
    closeConn (closeConn s).1 = (⟨[], [], [], []⟩, []) := by
  have hzl : (s.sendFDs.zip s.errChs).length = s.sendFDs.length := by
    simp [List.length_zip, hlen]
  have hfst : (s.sendFDs.zip s.errChs).map Prod.fst = s.sendFDs :=
    List.map_fst_zip _ _ (by omega)
  have hsnd : (s.sendFDs.zip s.errChs).map Prod.snd = s.errChs :=
    List.map_snd_zip _ _ (by omega)
  have hS := close_sendPart (s.sendFDs.zip s.errChs)
  have hW := close_waiterPart s.recvFDChans
  have hC := close_cachePart s.recvedFDs
  have herr : errDeliveries (closeConn s).2 =
      s.errChs.zip (s.sendFDs.map Err.connClosed) := by
    show errDeliveries (_ ++ _ ++ _) = _
    rw [errDeliveries_append, errDeliveries_append, hC.1, hW.1, hS.1,
      zip_map_connClosed s.sendFDs s.errChs hlen.symm]
    simp
  refine ⟨herr, ?_, ?_, ?_, ?_, rfl, rfl⟩
  · rw [herr]
    simp [List.length_zip, hlen]
  · show closedChans (_ ++ _ ++ _) = _
    rw [closedChans_append, closedChans_append, hC.2.1, hW.2.1, hS.2.1, hsnd]
    simp
  · show closedFDs (_ ++ _ ++ _) = _
    rw [closedFDs_append, closedFDs_append, hC.2.2.1, hW.2.2.1, hS.2.2.1, hfst]
    simp
  · show fdDeliveries (_ ++ _ ++ _) = _
    rw [fdDeliveries_append, fdDeliveries_append, hC.2.2.2, hW.2.2.2, hS.2.2.2]
    simp

/-- Witness for C3 on a connection with two queued sends, one cached
descriptor and one waiter list. -/
theorem c3_witness :
    errDeliveries (closeConn ⟨[30, 31], [5, 6], [(⟨1, 2⟩, 40)], [(⟨3, 4⟩, [7, 8])]⟩).2 =
      [5, 6].zip ([30, 31].map Err.connClosed) ∧
    (errDeliveries (closeConn ⟨[30, 31], [5, 6], [(⟨1, 2⟩, 40)], [(⟨3, 4⟩, [7, 8])]⟩).2).length = 2 ∧
    closedChans (closeConn ⟨[30, 31], [5, 6], [(⟨1, 2⟩, 40)], [(⟨3, 4⟩, [7, 8])]⟩).2 =
      ([(⟨3, 4⟩, [7, 8])] : List (InodeKey × List Nat)).flatMap (fun p => p.2) ++ [5, 6] ∧
    closedFDs (closeConn ⟨[30, 31], [5, 6], [(⟨1, 2⟩, 40)], [(⟨3, 4⟩, [7, 8])]⟩).2 =
      [(⟨1, 2⟩, 40)].map (fun p : InodeKey × Nat => p.2) ++ [30, 31] ∧
    fdDeliveries (closeConn ⟨[30, 31], [5, 6], [(⟨1, 2⟩, 40)], [(⟨3, 4⟩, [7, 8])]⟩).2 = [] ∧
    (closeConn ⟨[30, 31], [5, 6], [(⟨1, 2⟩, 40)], [(⟨3, 4⟩, [7, 8])]⟩).1 = ⟨[], [], [], []⟩ ∧
    closeConn (closeConn ⟨[30, 31], [5, 6], [(⟨1, 2⟩, 40)], [(⟨3, 4⟩, [7, 8])]⟩).1 =
      (⟨[], [], [], []⟩, []) :=
  c3_close_fails_pending ⟨[30, 31], [5, 6], [(⟨1, 2⟩, 40)], [(⟨3, 4⟩, [7, 8])]⟩ rfl

/-! ## Lemmas: write drain (claims C1 and C10) -/

/-- With all ancillary sends succeeding, the drain loop succeeds exactly
on a long-enough buffer and its trace sends one message per entry, in
order, pairing buffer byte `i + j` with the `j`-th queued descriptor,
closing each entry's channel and descriptor, and delivering nothing
else. -/
theorem drainEntries_spec (b : List Nat) :
    ∀ (entries : List (Nat × Nat)) (i : Nat), i + entries.length ≤ b.length →
    ∃ evs, drainEntries b (fun _ => none) entries i = some evs ∧
      sentMsgs evs = ((b.drop i).take entries.length).zip (entries.map Prod.fst) ∧
      closedChans evs = entries.map Prod.snd ∧
      closedFDs evs = entries.map Prod.fst ∧
      errDeliveries evs = [] ∧
      fdDeliveries evs = [] := by
  intro entries
  induction entries with
  | nil =>
    intro i hi
    exact ⟨[], rfl, by simp [sentMsgs_nil], rfl, rfl, rfl, rfl⟩
  | cons a rest ih =>
    intro i hi
    obtain ⟨fd, ch⟩ := a
    have hlt : i < b.length := by simp at hi; omega
    obtain ⟨evs, hD, hM, hC, hF, hE, hFD⟩ := ih (i + 1) (by simp at hi ⊢; omega)
    refine ⟨FDEvent.writeMsg b[i] fd :: FDEvent.chanClose ch ::
      FDEvent.closeFD fd :: evs, ?_, ?_, ?_, ?_, ?_, ?_⟩
    · rw [drainEntries, List.getElem?_eq_getElem hlt, hD]
      rfl
    · rw [List.drop_eq_getElem_cons hlt]
      simp only [List.length_cons, List.map_cons, List.take_succ_cons,
        List.zip_cons_cons, sentMsgs_cons, hM]
      simp
    · simp [closedChans_cons, hC]
    · simp [closedFDs_cons, hF]
    · simp [errDeliveries_cons, hE]
    · simp [fdDeliveries_cons, hFD]

/-- The drain loop hits the out-of-range branch exactly when there is at
least one entry and the buffer is too short for the indices consumed. -/
theorem drainEntries_isNone_iff (b : List Nat) (msgErr : Nat → Option Err) :
    ∀ (entries : List (Nat × Nat)) (i : Nat),
      drainEntries b msgErr entries i = none ↔
        (entries ≠ [] ∧ b.length < i + entries.length) := by
  intro entries
  induction entries with
  | nil => intro i; simp [drainEntries]
  | cons a rest ih =>
    intro i
    obtain ⟨fd, ch⟩ := a
    rw [drainEntries]
    cases hb : b[i]? with
    | none =>
      have : b.length ≤ i := by
        rw [List.getElem?_eq_none_iff] at hb
        exact hb
      simp only [List.length_cons]
      constructor
      · intro _; exact ⟨by simp, by omega⟩
      · intro _; trivial
    | some byte =>
      have hlt : i < b.length := by
        by_contra hge
        rw [List.getElem?_eq_none_iff.mpr (by omega)] at hb
        exact Option.noConfusion hb
      cases hr : drainEntries b msgErr rest (i + 1) with
      | none =>
        have := (ih (i + 1)).mp hr
        simp only [List.length_cons]
        constructor
        · intro _
          exact ⟨by simp, by omega⟩
        · intro _; trivial
      | some evs =>
        have hnot := (ih (i + 1)).not.mp (by rw [hr]; simp)
        simp only [List.length_cons]
        constructor
        · intro hcontra; exact Option.noConfusion hcontra
        · intro ⟨_, hshort⟩
          rcases List.eq_nil_or_concat rest with hrest | _
          · subst hrest; simp at hshort; omega
          · push_neg at hnot
            have : rest ≠ [] := by
              rintro rfl
              simp at hshort
              omega
            have := hnot this
            omega

/-- Claim C1: a write on a connection with `k` queued sends and a
buffer of length at least `min(k, 64)`, with all transmissions
succeeding, drains exactly the first `min(k, 64)` entries in FIFO order,
sends for the `j`-th drained entry one ancillary message carrying
exactly byte `j` of the buffer and that entry's descriptor, closes each
drained channel and wrapper-owned duplicate, writes the remaining bytes
normally, reports the full buffer length, and leaves the entries beyond
the cap queued in order. -/
theorem c1_write_drain (s : ConnState) (b : List Nat)
    (hlen : s.errChs.length = s.sendFDs.length)
    (hb : writeLimit s ≤ b.length) :
    ∃ evs,
      connWrite s b (fun _ => none) none 0 =
        some ({ s with sendFDs := s.sendFDs.drop (writeLimit s), errChs := s.errChs.drop (writeLimit s) },
          evs ++ [FDEvent.writeBytes (b.drop (writeLimit s))], b.length, none) ∧
      sentMsgs evs = (b.take (writeLimit s)).zip (s.sendFDs.take (writeLimit s)) ∧
      closedChans evs = s.errChs.take (writeLimit s) ∧
      closedFDs evs = s.sendFDs.take (writeLimit s) ∧
      errDeliveries evs = [] ∧
      fdDeliveries evs = [] := by
  have hlim : writeLimit s ≤ s.sendFDs.length := by
    rw [writeLimit]; omega
  have hlim2 : writeLimit s ≤ s.errChs.length := by omega
  have htf : (s.sendFDs.take (writeLimit s)).length = writeLimit s := by
    simp [List.length_take]; omega
  have htc : (s.errChs.take (writeLimit s)).length = writeLimit s := by
    simp [List.length_take]; omega
  have hez : ((s.sendFDs.take (writeLimit s)).zip
      (s.errChs.take (writeLimit s))).length = writeLimit s := by
    simp [List.length_zip, htf, htc]
  have hfst : ((s.sendFDs.take (writeLimit s)).zip
      (s.errChs.take (writeLimit s))).map Prod.fst = s.sendFDs.take (writeLimit s) :=
    List.map_fst_zip _ _ (by omega)
  have hsnd : ((s.sendFDs.take (writeLimit s)).zip
      (s.errChs.take (writeLimit s))).map Prod.snd = s.errChs.take (writeLimit s) :=
    List.map_snd_zip _ _ (by omega)
  obtain ⟨evs, hD, hM, hC, hF, hE, hFD⟩ :=
    drainEntries_spec b ((s.sendFDs.take (writeLimit s)).zip
      (s.errChs.take (writeLimit s))) 0 (by omega)
  refine ⟨evs, ?_, ?_, ?_, ?_, hE, hFD⟩
  · have hn : (b.drop (writeLimit s)).length + writeLimit s = b.length := by
      simp [List.length_drop]; omega
    simp only [connWrite, hD]
    rw [hn]
  · rw [hM, hez, hfst, List.drop_zero]
  · rw [hC, hsnd]
  · rw [hF, hfst]

/-- Witness for C1: three queued sends, a five-byte buffer. -/
theorem c1_witness :
    ∃ evs,
      connWrite ⟨[30, 31, 32], [5, 6, 7], [], []⟩ [9, 8, 7, 6, 5]
          (fun _ => none) none 0 =
        some (⟨[], [], [], []⟩,
          evs ++ [FDEvent.writeBytes [6, 5]], 5, none) ∧
      sentMsgs evs = [9, 8, 7].zip [30, 31, 32] ∧
      closedChans evs = [5, 6, 7] ∧
      closedFDs evs = [30, 31, 32] ∧
      errDeliveries evs = [] ∧
      fdDeliveries evs = [] :=
  c1_write_drain ⟨[30, 31, 32], [5, 6, 7], [], []⟩ [9, 8, 7, 6, 5] rfl
    (by decide)

/-- Claim C10: when the queue is nonempty, the drain loop of `Write`
indexes the buffer at `0 .. min(k, 64) - 1` without a length check, so
the call avoids the out-of-range branch exactly when the buffer has at
least `min(k, 64)` bytes; for any shorter buffer the index is out of
range. -/
theorem c10_write_precondition (s : ConnState) (b : List Nat)
    (msgErr : Nat → Option Err) (finalErr : Option Err) (nFail : Nat)
    (hlen : s.errChs.length = s.sendFDs.length)
    (hk : s.sendFDs ≠ []) :
    connWrite s b msgErr finalErr nFail = none ↔ b.length < writeLimit s := by
  have hkl : 0 < s.sendFDs.length := List.length_pos.mpr hk
  have hlim : 0 < writeLimit s := by
    rw [writeLimit, maxFDCount]; omega
  have hlim1 : writeLimit s ≤ s.sendFDs.length := by rw [writeLimit]; omega
  have hez : ((s.sendFDs.take (writeLimit s)).zip
      (s.errChs.take (writeLimit s))).length = writeLimit s := by
    simp [List.length_zip, List.length_take]; omega
  have hne : (s.sendFDs.take (writeLimit s)).zip
      (s.errChs.take (writeLimit s)) ≠ [] := by
    intro hcontra
    rw [hcontra] at hez
    simp at hez
    omega
  rw [connWrite]
  cases hd : drainEntries b msgErr ((s.sendFDs.take (writeLimit s)).zip
      (s.errChs.take (writeLimit s))) 0 with
  | none =>
    have := (drainEntries_isNone_iff b msgErr _ 0).mp hd
    rw [hez] at this
    simp only [Nat.zero_add] at this
    simp [this.2]
  | some evs =>
    have hnot := (drainEntries_isNone_iff b msgErr _ 0).not.mp (by rw [hd]; simp)
    push_neg at hnot
    have := hnot hne
    rw [hez] at this
    cases finalErr <;> simp <;> omega

/-- Witness for C10: two queued sends, a one-byte buffer panics; with
two bytes it does not. -/
theorem c10_witness :
    (connWrite ⟨[30, 31], [5, 6], [], []⟩ [9] (fun _ => none) none 0 = none ↔
      (1 : Nat) < writeLimit ⟨[30, 31], [5, 6], [], []⟩) :=
  c10_write_precondition ⟨[30, 31], [5, 6], [], []⟩ [9] (fun _ => none) none 0
    rfl (by decide)

/-! ## Lemmas: association lists and waiter resolution -/

theorem lookupKey_eq_none_iff {α : Type} (k : InodeKey) (m : List (InodeKey × α)) :
    lookupKey k m = none ↔ k ∉ m.map Prod.fst := by
  induction m with
  | nil => simp [lookupKey]
  | cons a rest ih =>
    obtain ⟨k2, v⟩ := a
    by_cases h : k2 = k
    · subst h
      simp [lookupKey]
    · have hne : k ≠ k2 := fun hk => h hk.symm
      simp [lookupKey, if_neg h, ih, List.mem_cons, not_or, hne]

theorem lookupKey_append_self {α : Type} {k : InodeKey} {m : List (InodeKey × α)}
    (v : α) (h : lookupKey k m = none) : lookupKey k (m ++ [(k, v)]) = some v := by
  induction m with
  | nil => simp [lookupKey]
  | cons a rest ih =>
    obtain ⟨k2, w⟩ := a
    rw [lookupKey] at h
    by_cases hk : k2 = k
    · rw [if_pos hk] at h
      exact Option.noConfusion h
    · rw [if_neg hk] at h
      simp only [List.cons_append, lookupKey, if_neg hk]
      exact ih h

theorem lookupKey_eraseKey_self {α : Type} (k : InodeKey) (m : List (InodeKey × α)) :
    lookupKey k (eraseKey k m) = none := by
  induction m with
  | nil => rfl
  | cons a rest ih =>
    obtain ⟨k2, v⟩ := a
    by_cases h : k2 = k
    · simp only [eraseKey, if_pos h, ih]
    · simp only [eraseKey, if_neg h, lookupKey, ih]

theorem lookupKey_appendWaiter (k : InodeKey) (ch : Nat)
    (m : List (InodeKey × List Nat)) :
    lookupKey k (appendWaiter k ch m) =
      some ((lookupKey k m).getD [] ++ [ch]) := by
  induction m with
  | nil => simp [appendWaiter, lookupKey]
  | cons a rest ih =>
    obtain ⟨k2, chs⟩ := a
    by_cases h : k2 = k
    · subst h
      simp [appendWaiter, lookupKey]
    · simp only [appendWaiter, if_neg h, lookupKey, ih]

theorem fdDeliveries_resolveWaiters (dup : Nat → Option Nat) :
    ∀ (ws : List Nat) (j : Nat),
      fdDeliveries (resolveWaiters dup ws j) =
        (withIdx j ws).filterMap fun p => (dup p.1).map fun fd2 => (p.2, fd2) := by
  intro ws
  induction ws with
  | nil => intro j; rfl
  | cons ch rest ih =>
    intro j
    rw [resolveWaiters, withIdx]
    cases hd : dup j with
    | none =>
      simp [fdDeliveries_append, fdDeliveries_cons, fdDeliveries_nil, ih,
        List.filterMap_cons, hd]
    | some fd2 =>
      simp [fdDeliveries_append, fdDeliveries_cons, fdDeliveries_nil, ih,
        List.filterMap_cons, hd]

theorem closedChans_resolveWaiters (dup : Nat → Option Nat) :
    ∀ (ws : List Nat) (j : Nat),
      closedChans (resolveWaiters dup ws j) = ws := by
  intro ws
  induction ws with
  | nil => intro j; rfl
  | cons ch rest ih =>
    intro j
    rw [resolveWaiters]
    cases hd : dup j with
    | none => simp [closedChans_append, closedChans_cons, closedChans_nil, ih]
    | some fd2 => simp [closedChans_append, closedChans_cons, closedChans_nil, ih]

theorem deliveredTo_append (a b : List FDEvent) (ch : Nat) :
    deliveredTo (a ++ b) ch = (deliveredTo a ch || deliveredTo b ch) := by
  simp [deliveredTo, List.any_append]

theorem deliveredTo_resolveWaiters (dup : Nat → Option Nat)
    (hall : ∀ i, (dup i).isSome) :
    ∀ (ws : List Nat) (j ch : Nat), ch ∈ ws →
      deliveredTo (resolveWaiters dup ws j) ch = true := by
  intro ws
  induction ws with
  | nil => intro j ch h; simp at h
  | cons c rest ih =>
    intro j ch h
    rw [resolveWaiters]
    cases hd : dup j with
    | none =>
      have := hall j
      rw [hd] at this
      simp at this
    | some fd2 =>
      rw [deliveredTo_append]
      rcases List.mem_cons.mp h with rfl | hmem
      · simp [deliveredTo]
      · simp [ih (j + 1) ch hmem]

theorem resolveWaiters_all_none (dup : Nat → Option Nat)
    (h : ∀ i, dup i = none) :
    ∀ (ws : List Nat) (j : Nat),
      resolveWaiters dup ws j = ws.map FDEvent.chanClose := by
  intro ws
  induction ws with
  | nil => intro j; rfl
  | cons c rest ih =>
    intro j
    rw [resolveWaiters, h j]
    simp [ih]

theorem handleArrival_preserves_keysNodup (s : ConnState) (key : InodeKey)
    (fd : Nat) (dup : Nat → Option Nat) (h : keysNodup s.recvedFDs) :
    keysNodup (handleArrival s key fd dup).1.recvedFDs := by
  rw [handleArrival]
  cases hc : lookupKey key s.recvedFDs with
  | some v => exact h
  | none =>
    have hout : key ∉ s.recvedFDs.map Prod.fst :=
      (lookupKey_eq_none_iff key s.recvedFDs).mp hc
    simp only [keysNodup, List.map_append, List.map_cons, List.map_nil] at h ⊢
    rw [List.nodup_append]
    exact ⟨h, List.nodup_singleton key, by simpa [List.disjoint_singleton] using hout⟩

/-! ## Claims C5 and C2: arrival handling -/

/-- Claim C5: at most one descriptor is cached per identity (the cache
keys stay pairwise distinct under arrival handling), and an arrival for
an identity that already has a cached descriptor closes the newly
arrived raw descriptor, leaves the whole state unchanged, and does
nothing else. -/
theorem c5_cache_first_writer_wins (s : ConnState) (key : InodeKey) (fd : Nat)
    (dup : Nat → Option Nat) (hc : (lookupKey key s.recvedFDs).isSome) :
    handleArrival s key fd dup = (s, [FDEvent.closeFD fd]) ∧
    (∀ (t : ConnState) (k2 : InodeKey) (f2 : Nat) (d2 : Nat → Option Nat),
      keysNodup t.recvedFDs → keysNodup (handleArrival t k2 f2 d2).1.recvedFDs) := by
  constructor
  · obtain ⟨v, hv⟩ := Option.isSome_iff_exists.mp hc
    rw [handleArrival, hv]
  · intro t k2 f2 d2 h
    exact handleArrival_preserves_keysNodup t k2 f2 d2 h

/-- Witness for C5: a second arrival for the cached identity `(1, 2)`. -/
theorem c5_witness :
    handleArrival ⟨[], [], [(⟨1, 2⟩, 40)], []⟩ ⟨1, 2⟩ 50 (fun _ => some 0) =
      (⟨[], [], [(⟨1, 2⟩, 40)], []⟩, [FDEvent.closeFD 50]) ∧
    (∀ (t : ConnState) (k2 : InodeKey) (f2 : Nat) (d2 : Nat → Option Nat),
      keysNodup t.recvedFDs → keysNodup (handleArrival t k2 f2 d2).1.recvedFDs) :=
  c5_cache_first_writer_wins ⟨[], [], [(⟨1, 2⟩, 40)], []⟩ ⟨1, 2⟩ 50 (fun _ => some 0)
    (by decide)

/-- Counterexample to claim C2 as stated: with two waiters registered
for identity `(1, 2)` and descriptor duplication succeeding for the
first duplication call but failing for the second, the first waiter
receives a duplicate while the second does not — the waiters neither all
receive a duplicate nor all reflect the same duplication-failure
outcome. -/
theorem c2_counterexample :
    lookupKey ⟨1, 2⟩ (⟨[], [], [], [(⟨1, 2⟩, [10, 11])]⟩ : ConnState).recvedFDs = none ∧
    deliveredTo (handleArrival ⟨[], [], [], [(⟨1, 2⟩, [10, 11])]⟩ ⟨1, 2⟩ 50
      (fun j => if j = 0 then some 77 else none)).2 10 = true ∧
    deliveredTo (handleArrival ⟨[], [], [], [(⟨1, 2⟩, [10, 11])]⟩ ⟨1, 2⟩ 50
      (fun j => if j = 0 then some 77 else none)).2 11 = false ∧
    ¬ ((deliveredTo (handleArrival ⟨[], [], [], [(⟨1, 2⟩, [10, 11])]⟩ ⟨1, 2⟩ 50
          (fun j => if j = 0 then some 77 else none)).2 10 = true ∧
        deliveredTo (handleArrival ⟨[], [], [], [(⟨1, 2⟩, [10, 11])]⟩ ⟨1, 2⟩ 50
          (fun j => if j = 0 then some 77 else none)).2 11 = true) ∨
       (deliveredTo (handleArrival ⟨[], [], [], [(⟨1, 2⟩, [10, 11])]⟩ ⟨1, 2⟩ 50
          (fun j => if j = 0 then some 77 else none)).2 10 = false ∧
        deliveredTo (handleArrival ⟨[], [], [], [(⟨1, 2⟩, [10, 11])]⟩ ⟨1, 2⟩ 50
          (fun j => if j = 0 then some 77 else none)).2 11 = false)) := by
  decide

/-- Claim C2 (amended): a descriptor arriving for an identity that is
not yet cached is cached, the identity's waiter list is cleared, every
registered waiter's channel is closed, and each waiter independently
receives a duplicate when its own duplication call succeeds; in
particular, when every duplication call succeeds, every registered
waiter receives a duplicate. -/
theorem c2_amended_arrival_resolves_waiters (s : ConnState) (key : InodeKey)
    (fd : Nat) (dup : Nat → Option Nat)
    (hc : lookupKey key s.recvedFDs = none) :
    lookupKey key (handleArrival s key fd dup).1.recvedFDs = some fd ∧
    lookupKey key (handleArrival s key fd dup).1.recvFDChans = none ∧
    fdDeliveries (handleArrival s key fd dup).2 =
      (withIdx 0 ((lookupKey key s.recvFDChans).getD [])).filterMap
        (fun p => (dup p.1).map fun fd2 => (p.2, fd2)) ∧
    closedChans (handleArrival s key fd dup).2 =
      (lookupKey key s.recvFDChans).getD [] ∧
    ((∀ i, (dup i).isSome) → ∀ ch ∈ (lookupKey key s.recvFDChans).getD [],
      deliveredTo (handleArrival s key fd dup).2 ch = true) := by
  simp only [handleArrival, hc]
  refine ⟨lookupKey_append_self fd hc, lookupKey_eraseKey_self key s.recvFDChans,
    fdDeliveries_resolveWaiters dup _ 0, closedChans_resolveWaiters dup _ 0, ?_⟩
  intro hall ch hch
  exact deliveredTo_resolveWaiters dup hall _ 0 ch hch

/-- Witness for the amended C2: two waiters, both duplications succeed. -/
theorem c2_amended_witness :
    lookupKey ⟨1, 2⟩ (handleArrival ⟨[], [], [], [(⟨1, 2⟩, [10, 11])]⟩ ⟨1, 2⟩ 50
      (fun j => some (70 + j))).1.recvedFDs = some 50 ∧
    lookupKey ⟨1, 2⟩ (handleArrival ⟨[], [], [], [(⟨1, 2⟩, [10, 11])]⟩ ⟨1, 2⟩ 50
      (fun j => some (70 + j))).1.recvFDChans = none ∧
    fdDeliveries (handleArrival ⟨[], [], [], [(⟨1, 2⟩, [10, 11])]⟩ ⟨1, 2⟩ 50
      (fun j => some (70 + j))).2 =
      (withIdx 0 ((lookupKey ⟨1, 2⟩
        (⟨[], [], [], [(⟨1, 2⟩, [10, 11])]⟩ : ConnState).recvFDChans).getD [])).filterMap
        (fun p => ((fun j => some (70 + j)) p.1).map fun fd2 => (p.2, fd2)) ∧
    closedChans (handleArrival ⟨[], [], [], [(⟨1, 2⟩, [10, 11])]⟩ ⟨1, 2⟩ 50
      (fun j => some (70 + j))).2 =
      (lookupKey ⟨1, 2⟩
        (⟨[], [], [], [(⟨1, 2⟩, [10, 11])]⟩ : ConnState).recvFDChans).getD [] ∧
    ((∀ i, ((fun j => some (70 + j)) i).isSome) →
      ∀ ch ∈ (lookupKey ⟨1, 2⟩
        (⟨[], [], [], [(⟨1, 2⟩, [10, 11])]⟩ : ConnState).recvFDChans).getD [],
      deliveredTo (handleArrival ⟨[], [], [], [(⟨1, 2⟩, [10, 11])]⟩ ⟨1, 2⟩ 50
        (fun j => some (70 + j))).2 ch = true) :=
  c2_amended_arrival_resolves_waiters ⟨[], [], [], [(⟨1, 2⟩, [10, 11])]⟩ ⟨1, 2⟩ 50
    (fun j => some (70 + j)) (by decide)

/-! ## Claim C4: receive by identity -/

/-- Claim C4: a receive for an identity with a cached descriptor
delivers a fresh duplicate on the returned channel, closes it, and
leaves the state — in particular the cache entry — untouched, so every
later receive for the identity again hits the cache; a receive for an
identity with no cached descriptor registers the channel as a waiter
(appended to the identity's list) and that channel is resolved by the
next matching arrival whose duplications succeed. -/
theorem c4_recv_by_identity (s : ConnState) (dev ino newCh fd fd2 : Nat)
    (hhit : lookupKey ⟨dev, ino⟩ s.recvedFDs = some fd) :
    recvFD s dev ino newCh (some fd2) =
      (s, [FDEvent.chanSendFD newCh fd2, FDEvent.chanClose newCh], newCh) ∧
    lookupKey ⟨dev, ino⟩ (recvFD s dev ino newCh (some fd2)).1.recvedFDs = some fd ∧
    (∀ (t : ConnState) (d2 i2 c2 : Nat) (dp : Option Nat),
      lookupKey ⟨d2, i2⟩ t.recvedFDs = none →
      recvFD t d2 i2 c2 dp =
        ({ t with recvFDChans := appendWaiter ⟨d2, i2⟩ c2 t.recvFDChans }, [], c2) ∧
      lookupKey ⟨d2, i2⟩ (recvFD t d2 i2 c2 dp).1.recvFDChans =
        some ((lookupKey ⟨d2, i2⟩ t.recvFDChans).getD [] ++ [c2]) ∧
      (∀ (fdA : Nat) (dupA : Nat → Option Nat), (∀ i, (dupA i).isSome) →
        deliveredTo (handleArrival (recvFD t d2 i2 c2 dp).1 ⟨d2, i2⟩ fdA dupA).2
          c2 = true)) := by
  refine ⟨by simp only [recvFD, hhit], by simp only [recvFD, hhit], ?_⟩
  intro t d2 i2 c2 dp hmiss
  refine ⟨by simp only [recvFD, hmiss], ?_, ?_⟩
  · simp only [recvFD, hmiss]
    exact lookupKey_appendWaiter ⟨d2, i2⟩ c2 t.recvFDChans
  · intro fdA dupA hall
    simp only [recvFD, hmiss, handleArrival]
    rw [lookupKey_appendWaiter ⟨d2, i2⟩ c2 t.recvFDChans]
    exact deliveredTo_resolveWaiters dupA hall _ 0 c2 (by simp)

/-- Witness for C4: cache hit at `(1, 2)`, then a miss on an empty
connection. -/
theorem c4_witness :
    recvFD ⟨[], [], [(⟨1, 2⟩, 40)], []⟩ 1 2 9 (some 41) =
      (⟨[], [], [(⟨1, 2⟩, 40)], []⟩,
        [FDEvent.chanSendFD 9 41, FDEvent.chanClose 9], 9) ∧
    lookupKey ⟨1, 2⟩
      (recvFD ⟨[], [], [(⟨1, 2⟩, 40)], []⟩ 1 2 9 (some 41)).1.recvedFDs = some 40 ∧
    recvFD ⟨[], [], [], []⟩ 3 4 12 none =
      ({ (⟨[], [], [], []⟩ : ConnState) with
          recvFDChans := appendWaiter ⟨3, 4⟩ 12 [] }, [], 12) ∧
    deliveredTo (handleArrival (recvFD ⟨[], [], [], []⟩ 3 4 12 none).1 ⟨3, 4⟩ 60
      (fun j => some (80 + j))).2 12 = true := by
  have h := c4_recv_by_identity ⟨[], [], [(⟨1, 2⟩, 40)], []⟩ 1 2 9 40 41 (by decide)
  have hm := h.2.2 ⟨[], [], [], []⟩ 3 4 12 none (by decide)
  exact ⟨h.1, h.2.1, hm.1, hm.2.2 60 (fun j => some (80 + j)) (fun i => rfl)⟩

/-! ## Claim C8: duplication failures surface on the operation's channel -/

/-- Claim C8: `SendFD` duplicates the caller's descriptor synchronously;
on duplication failure the error is delivered on the returned channel
immediately and the channel closed with nothing enqueued, while on
success the wrapper-owned duplicate (not the caller's descriptor) and
the channel are enqueued; a cache-hit receive whose duplication fails
closes the operation's channel without a value and keeps the cache; and
a waiter resolution in which every duplication fails closes every
waiter's channel without a delivery. -/
theorem c8_dup_failure_surfaces (s : ConnState) (newCh fd2 dev ino cfd ch2 : Nat)
    (hc : lookupKey ⟨dev, ino⟩ s.recvedFDs = some cfd) :
    sendFD s newCh none =
      (s, [FDEvent.chanSendErr newCh Err.dupFailed, FDEvent.chanClose newCh], newCh) ∧
    sendFD s newCh (some fd2) =
      ({ s with sendFDs := s.sendFDs ++ [fd2], errChs := s.errChs ++ [newCh] },
        [], newCh) ∧
    recvFD s dev ino ch2 none = (s, [FDEvent.chanClose ch2], ch2) ∧
    (∀ (dup : Nat → Option Nat) (ws : List Nat) (j : Nat), (∀ i, dup i = none) →
      resolveWaiters dup ws j = ws.map FDEvent.chanClose) :=
  ⟨rfl, rfl, by simp only [recvFD, hc],
   fun dup ws j h => resolveWaiters_all_none dup h ws j⟩

/-- Witness for C8 on a connection with a cached descriptor at `(1, 2)`. -/
theorem c8_witness :
    sendFD ⟨[30], [5], [(⟨1, 2⟩, 40)], []⟩ 12 none =
      (⟨[30], [5], [(⟨1, 2⟩, 40)], []⟩,
        [FDEvent.chanSendErr 12 Err.dupFailed, FDEvent.chanClose 12], 12) ∧
    sendFD ⟨[30], [5], [(⟨1, 2⟩, 40)], []⟩ 12 (some 33) =
      (⟨[30, 33], [5, 12], [(⟨1, 2⟩, 40)], []⟩, [], 12) ∧
    recvFD ⟨[30], [5], [(⟨1, 2⟩, 40)], []⟩ 1 2 9 none =
      (⟨[30], [5], [(⟨1, 2⟩, 40)], []⟩, [FDEvent.chanClose 9], 9) ∧
    resolveWaiters (fun _ => none) [7, 8] 0 =
      [FDEvent.chanClose 7, FDEvent.chanClose 8] := by
  have h := c8_dup_failure_surfaces ⟨[30], [5], [(⟨1, 2⟩, 40)], []⟩ 12 33 1 2 40 9
    (by decide)
  exact ⟨h.1, h.2.1, h.2.2.1, h.2.2.2 (fun _ => none) [7, 8] 0 (fun i => rfl)⟩

/-! ## Claim C9: per-call credential adapter -/

/-- Claim C9: a metadata-retrieval invocation leaves an already-resolved
capability and the state unchanged and replays nothing; when unresolved
and a capability is discoverable from the call context it is stored,
every deferred operation is replayed against it in original submission
order, and the deferred list is cleared (when none is discoverable
nothing changes); an operation invoked before resolution returns its
caller-visible channel immediately and is deferred at the tail of the
list, and the resolving invocation replays it against the capability
targeting that very channel; once resolved, any later invocation leaves
the state unchanged and never replays. -/
theorem c9_percall_capability_resolution (s : PerRPCState) (t : Nat)
    (ctxT : Option Nat) (fd newCh : Nat) :
    (s.transceiver = some t → getRequestMetadata s ctxT = (s, [])) ∧
    (s.transceiver = none →
      getRequestMetadata s (some t) =
        (⟨some t, []⟩, s.transceiverFuncs.map fun f => (t, f))) ∧
    (s.transceiver = none → getRequestMetadata s none = (s, [])) ∧
    (s.transceiver = none →
      perRPCSendFD s fd newCh =
        ({ s with transceiverFuncs :=
            s.transceiverFuncs ++ [DeferredOp.sendFDOp fd newCh] }, [], newCh) ∧
      (getRequestMetadata (perRPCSendFD s fd newCh).1 (some t)).1 = ⟨some t, []⟩ ∧
      (getRequestMetadata (perRPCSendFD s fd newCh).1 (some t)).2 =
        (s.transceiverFuncs ++ [DeferredOp.sendFDOp fd newCh]).map (fun f => (t, f)) ∧
      ((getRequestMetadata (perRPCSendFD s fd newCh).1 (some t)).2.map
        fun p => p.2.outChan).getLast? = some newCh) ∧
    (∀ u : Nat, (getRequestMetadata s ctxT).1.transceiver = some u →
      getRequestMetadata (getRequestMetadata s ctxT).1 ctxT =
        ((getRequestMetadata s ctxT).1, [])) := by
  refine ⟨?_, ?_, ?_, ?_, ?_⟩
  · intro h
    rw [getRequestMetadata.eq_def, h]
  · intro h
    rw [getRequestMetadata.eq_def, h]
  · intro h
    rw [getRequestMetadata.eq_def, h]
  · intro h
    refine ⟨by rw [perRPCSendFD.eq_def, h], ?_, ?_, ?_⟩
    · simp only [perRPCSendFD, h, getRequestMetadata]
    · simp only [perRPCSendFD, h, getRequestMetadata]
    · simp only [perRPCSendFD, h, getRequestMetadata, List.map_append,
        List.map_map, List.map_cons, List.map_nil]
      rw [List.getLast?_append_cons]
      rfl
  · intro u hu
    rw [getRequestMetadata.eq_def, hu]

/-- Witness for C9 with one deferred receive, then a send deferred
before resolution at capability 99. -/
theorem c9_witness :
    getRequestMetadata ⟨some 99, []⟩ (some 99) = (⟨some 99, []⟩, []) ∧
    getRequestMetadata ⟨none, [DeferredOp.recvFDOp 1 2 21]⟩ (some 99) =
      (⟨some 99, []⟩,
        ([DeferredOp.recvFDOp 1 2 21].map fun f => (99, f))) ∧
    getRequestMetadata ⟨none, [DeferredOp.recvFDOp 1 2 21]⟩ none =
      (⟨none, [DeferredOp.recvFDOp 1 2 21]⟩, []) ∧
    perRPCSendFD ⟨none, [DeferredOp.recvFDOp 1 2 21]⟩ 3 20 =
      ({ (⟨none, [DeferredOp.recvFDOp 1 2 21]⟩ : PerRPCState) with
          transceiverFuncs := [DeferredOp.recvFDOp 1 2 21] ++
            [DeferredOp.sendFDOp 3 20] }, [], 20) ∧
    ((getRequestMetadata
        (perRPCSendFD ⟨none, [DeferredOp.recvFDOp 1 2 21]⟩ 3 20).1 (some 99)).2.map
      fun p => p.2.outChan).getLast? = some 20 := by
  have h9 := c9_percall_capability_resolution ⟨none, [DeferredOp.recvFDOp 1 2 21]⟩
    99 (some 99) 3 20
  have h1 := c9_percall_capability_resolution ⟨some 99, []⟩ 99 (some 99) 3 20
  have hd := h9.2.2.2.1 rfl
  exact ⟨h1.1 rfl, h9.2.1 rfl, h9.2.2.1 rfl, hd.1, hd.2.2.2⟩

end GrpcFD
